import Mathlib

/-
Verification development for a work-stealing deque (ABP-style, continuous-array
backed) together with its block-based backing store and an auxiliary pool
allocator.

The deque (src/include/parlay/internal/work_stealing_deque.h) is modelled by a
state `Deque V` holding the two 64-bit counters `bot` and `top` and the contents
of the backing continuous array, viewed as the index-to-slot map it implements
(`deq : Nat -> Option V`; `none` models a slot that was never written, matching
the C++ `V*` being absent).  The three operations `push_bottom`, `pop_bottom`
and `pop_top` are translated line by line for the sequential (single thread at
a time, operations run to completion) semantics: in that semantics every
`compare_exchange_strong` observes the value that was just loaded, so the CAS
helper below always takes its success branch; the failure branches are kept in
the definitions to mirror the source.

The continuous array block machinery (src/unnamed/part_000) is modelled
separately for the block-retirement claims: `CAState` keeps the block ids of
`tail` and `head` (block ids are unique and consecutive along the next links,
so a block pointer is identified by its id) and the list of ids pushed onto the
retire list.  The CAS retry loop of `ca_retire_last_block` is translated as
`retireCasLoop`, parametrised by the tail values an interfering thief makes the
loop observe.

The pool allocator (src/unnamed/part_001) is modelled by `pool_allocator`.
The two helper components whose sources are not in the repository snapshot are
modelled from the specification: `hazptr_stack` (one lock-free stack of blocks
per large bucket; only its occupancy matters here) and `block_allocator`
(per-thread free list with counts of allocated and used blocks).
-/

/-! ## Work-stealing deque, sequential semantics -/

/-- State of `parlay::internal::Deque<V>`: the owner counter `bot`, the thief
counter `top`, and the contents of the backing continuous array viewed as an
index-to-slot map. -/
structure Deque (V : Type) where
  bot : Nat
  top : Nat
  deq : Nat → Option V
deriving Inhabited

/-- One 64-bit `compare_exchange_strong` on a counter: given the current value,
the expected value and the desired value, return whether the CAS succeeded
together with the new value of the counter (unchanged on failure). -/
def cas (cur expected desired : Nat) : Bool × Nat :=
  if cur = expected then (true, desired) else (false, cur)

/-- `Deque::push_bottom(val)`: store `val` at index `bot` through
`continuous_array::put_head`, then publish `bot + 1`.  Returns `true` as in the
source. -/
def push_bottom {V : Type} (s : Deque V) (val : V) : Deque V × Bool :=
  let local_bot := s.bot
  ({ s with
      deq := fun i => if i = local_bot then some val else s.deq i,
      bot := local_bot + 1 }, true)

/-- `Deque::pop_top()`: load `top` and `bot`; if `bot > top`, CAS `top` to
`top + 1` and on success read the slot through `continuous_array::get_tail`;
the Boolean result is `local_bot == old_top + 1`.  Otherwise return
`(null, true)`. -/
def pop_top {V : Type} (s : Deque V) : (Option V × Bool) × Deque V :=
  let old_top := s.top
  let local_bot := s.bot
  if old_top < local_bot then
    let r := cas s.top old_top (old_top + 1)
    if r.1 then
      ((s.deq old_top, local_bot == old_top + 1), { s with top := r.2 })
    else
      ((none, local_bot == old_top + 1), { s with top := r.2 })
  else
    ((none, true), s)

/-- `Deque::pop_bottom()`: decrement `bot`, then compare with `top`; in the
contested `top == bot` case resolve through a CAS on `top` and restore `bot`.
Slot reads go through `continuous_array::get_head`. -/
def pop_bottom {V : Type} (s : Deque V) : Option V × Deque V :=
  let b0 := s.bot
  if b0 = 0 then
    (none, s)
  else
    let b := b0 - 1
    let s1 : Deque V := { s with bot := b }
    let t := s1.top
    if t ≤ b then
      let val := s1.deq b
      if t = b then
        let r := cas s1.top t (t + 1)
        let val2 := if r.1 then val else none
        (val2, { s1 with top := r.2, bot := b + 1 })
      else
        (val, s1)
    else
      (none, { s1 with bot := b + 1 })

/-- A single owner/thief operation on the deque. -/
inductive DeqOp (V : Type) where
  | push (v : V)
  | popBot
  | popTop

/-- Apply one operation to the state (discarding the returned value). -/
def stepOp {V : Type} (s : Deque V) : DeqOp V → Deque V
  | .push v => (push_bottom s v).1
  | .popBot => (pop_bottom s).2
  | .popTop => (pop_top s).2

/-- Run a sequence of operations from a state. -/
def runOps {V : Type} (s : Deque V) (ops : List (DeqOp V)) : Deque V :=
  ops.foldl stepOp s

/-- The state of a newly constructed deque: `bot = 0`, `top = 0`, no slot
written. -/
def dequeInit (V : Type) : Deque V := ⟨0, 0, fun _ => none⟩

/-- A state is reachable if some sequence of operations produces it from a
newly constructed deque. -/
def Reachable {V : Type} (s : Deque V) : Prop :=
  ∃ ops : List (DeqOp V), runOps (dequeInit V) ops = s

/-- The sequential state invariant: `top ≤ bot` and every index below `bot`
has been written. -/
def DequeInv {V : Type} (s : Deque V) : Prop :=
  s.top ≤ s.bot ∧ ∀ i, i < s.bot → (s.deq i).isSome

/-! ### Iterated operations -/

/-- Push a whole list of values with `push_bottom`, first element first. -/
def push_all {V : Type} (s : Deque V) (vs : List V) : Deque V :=
  vs.foldl (fun t v => (push_bottom t v).1) s

/-- Perform `n` owner pops, collecting the returned values in call order. -/
def pop_bottoms {V : Type} (s : Deque V) : Nat → List (Option V) × Deque V
  | 0 => ([], s)
  | n + 1 =>
    let r := pop_bottom s
    let rest := pop_bottoms r.2 n
    (r.1 :: rest.1, rest.2)

/-- Perform `n` thief pops, collecting the `(value, empty_after)` pairs in call
order. -/
def pop_tops {V : Type} (s : Deque V) : Nat → List (Option V × Bool) × Deque V
  | 0 => ([], s)
  | n + 1 =>
    let r := pop_top s
    let rest := pop_tops r.2 n
    (r.1 :: rest.1, rest.2)

/-! ## Continuous array: block ids, tail retirement -/

/-- `BLOCK_SIZE_LOG` from the source. -/
def blockSizeLog : Nat := 14

/-- `continuous_array::block_size = 1 << BLOCK_SIZE_LOG`. -/
def block_size : Nat := 2 ^ blockSizeLog

/-- `continuous_array::block_size_mask = block_size - 1`. -/
def block_size_mask : Nat := block_size - 1

/-- Modulus of the 64-bit unsigned integers used for indices and block ids. -/
def u64 : Nat := 2 ^ 64

/-- 64-bit unsigned subtraction with wraparound. -/
def u64sub (a b : Nat) : Nat := (a + u64 - b % u64) % u64

/-- Outcome of the CAS retry loop in `ca_retire_last_block`: the value `tail`
holds when the loop is exited, the block id held by the `old_block` variable
at exit (the block subsequently pushed onto `to_retire`), and how many CAS
attempts were executed. -/
structure RetireResult where
  finalTailId : Nat
  pushedId : Nat
  casAttempts : Nat
deriving DecidableEq

/-- Translation of the CAS retry loop of `continuous_array::ca_retire_last_block`.
`nxtId` is the block id of `next_old_block` (loaded once before the loop; ids
are consecutive along `next` links, so it is one more than the id first loaded
from `tail`); `oldId` is the current value of the `old_block` variable — note
that a failed `compare_exchange_strong` overwrites it with the observed value
of `tail`; `tailNow` is the value of `tail` the next CAS attempt observes.
`env` lists, for each subsequent iteration, the pair of tail values an
interfering thief makes the failed CAS and the following reload observe; when
`env` is exhausted there is no further interference, so every later access
sees the current value.  Block pointers are identified by their unique ids. -/
def retireCasLoop (nxtId : Nat) : Nat → Nat → List (Nat × Nat) → RetireResult
  | oldId, tailNow, [] =>
    if tailNow = oldId then ⟨nxtId, oldId, 1⟩
    else if nxtId < tailNow then ⟨tailNow, tailNow, 1⟩
    else ⟨nxtId, tailNow, 2⟩
  | oldId, _tailNow, (t1, t2) :: env =>
    if t1 = oldId then ⟨nxtId, oldId, 1⟩
    else if nxtId < t2 then ⟨t2, t1, 1⟩
    else
      let r := retireCasLoop nxtId t1 t2 env
      ⟨r.finalTailId, r.pushedId, r.casAttempts + 1⟩

/-- State of the `continuous_array` block list as seen from the thief side:
the block ids held by `tail` and `head` (live blocks are exactly the ids from
`tailId` to `headId`, linked in id order), and the ids pushed onto the
`to_retire` list, most recent first. -/
structure CAState where
  tailId : Nat
  headId : Nat
  retired : List Nat
deriving DecidableEq

/-- `continuous_array::ca_retire_last_block`, run without thief interference:
load `tail` into `old_block`, load its `next` (id `oldId + 1`), run the CAS
loop, then push the final value of the `old_block` variable onto `to_retire`. -/
def ca_retire_last_block (s : CAState) : CAState :=
  let oldId := s.tailId
  let nxtId := oldId + 1
  let r := retireCasLoop nxtId oldId s.tailId []
  { s with tailId := r.finalTailId, retired := r.pushedId :: s.retired }

/-- The forward walk of `get_tail`: starting from block `b`, follow `next`
while the block id is below `desired`.  A live block has a `next` exactly when
its id is below `headId`; walking past the head block reaches the null pointer,
modelled as `none`. -/
def searchFwd (headId desired b : Nat) : Option Nat :=
  if b < desired then
    if b < headId then searchFwd headId desired (b + 1) else none
  else some b
termination_by headId + 1 - b
decreasing_by omega

/-- The backward walk of `get_tail`: follow `prev` while the block id is above
`desired`.  Along the live chain `prev` links are id-consecutive, which is the
only case exercised by the sequential theorems below. -/
def searchBwd (desired b : Nat) : Nat :=
  if desired < b then searchBwd desired (b - 1) else b
termination_by b
decreasing_by omega

/-- `continuous_array::get_tail(index)`: compute the desired block id and the
offset, walk forward then backward from `tail` to the desired block, retire
the last block when (i) the offset is 0, (ii) the found block is not the
observed tail and (iii) the observed tail id is `desired_block_id - 1`
(64-bit arithmetic).  Returns the id of the block whose slot is read together
with the state after the optional retirement; `none` models a run that reads a
null pointer or fails the assertion that the desired block is found. -/
def get_tail (s : CAState) (index : Nat) : Option (Nat × CAState) :=
  let desired_block_id := index >>> blockSizeLog
  let offset := index &&& block_size_mask
  match searchFwd s.headId desired_block_id s.tailId with
  | none => none
  | some b0 =>
    let b := searchBwd desired_block_id b0
    if b = desired_block_id then
      let s2 :=
        if offset = 0 ∧ b ≠ s.tailId ∧ s.tailId = u64sub desired_block_id 1 then
          ca_retire_last_block s
        else s
      some (b, s2)
    else none

/-! ## Pool allocator -/

/-- `pool_allocator::large_threshold = 1 << 18`. -/
def large_threshold : Nat := 2 ^ 18

/-- `pool_allocator::max_alignment`. -/
def max_alignment : Nat := 128

/-- Where `allocate(n)` takes its memory from: a pop from the thread-local
small allocator of a bucket, a pop from the shared stack of a large bucket, or
a fresh chunk of the given size and alignment from `operator new`. -/
inductive AllocSource where
  | smallPop (bucket : Nat)
  | largePop (bucket : Nat)
  | freshChunk (size align : Nat)
deriving DecidableEq

/-- The bucket search loop `while (n > sizes[bucket]) bucket++`, expressed on
the list of sizes from the starting bucket onward; returns the offset from the
starting bucket. -/
def bucketFrom (n : Nat) : List Nat → Nat
  | [] => 0
  | s :: rest => if n > s then bucketFrom n rest + 1 else 0

/-- The rounding of `alloc_size` up to the next multiple of `max_alignment`
performed by `allocate_large`. -/
def round_up_align (a : Nat) : Nat :=
  if a % max_alignment ≠ 0 then a + (max_alignment - a % max_alignment) else a

/-- State of a `pool_allocator`.  `sizes` and `num_small` are fixed at
construction.  The shared large-bucket stacks are `hazptr_stack`s in the
source; that class is not part of this snapshot, so, modelled from the spec
("sizes at or above the threshold share one lock-free stack per bucket"),
`large_buckets` records each stack's occupancy — `pop` succeeds exactly when
the occupancy is positive.  The thread-local small pools are
`block_allocator`s in the source; that class is not part of this snapshot
either, so, modelled from the spec ("each thread keeps its own free-list per
bucket"), `smallAllocated` and `smallUsed` record the
`num_allocated_blocks`/`num_used_blocks` counters that `stats` reads. -/
structure pool_allocator where
  sizes : List Nat
  num_small : Nat
  smallAllocated : List Nat
  smallUsed : List Nat
  large_buckets : List Nat
  large_allocated : Nat
  large_used : Nat
deriving DecidableEq

/-- `max_size = sizes[num_buckets - 1]`. -/
def pool_allocator.max_size (p : pool_allocator) : Nat :=
  p.sizes.getD (p.sizes.length - 1) 0

/-- `max_small = (num_small > 0) ? sizes[num_small - 1] : 0`. -/
def pool_allocator.max_small (p : pool_allocator) : Nat :=
  if p.num_small = 0 then 0 else p.sizes.getD (p.num_small - 1) 0

/-- The `pool_allocator(sizes_)` constructor: copy the size table, count the
leading sizes below `large_threshold` as the small buckets, and set up empty
large-bucket stacks and zeroed small allocators. -/
def mkPool (sizes_ : List Nat) : pool_allocator :=
  let ns := (sizes_.takeWhile (fun s => s < large_threshold)).length
  { sizes := sizes_
    num_small := ns
    smallAllocated := List.replicate ns 0
    smallUsed := List.replicate ns 0
    large_buckets := List.replicate (sizes_.length - ns) 0
    large_allocated := 0
    large_used := 0 }

/-- `pool_allocator::allocate_large(n)`: count `n` into `large_used`; if `n`
fits some bucket, find the first bucket of size at least `n` starting at
`num_small` and pop its shared stack; on an empty stack (or for `n` above
`max_size`) allocate a fresh chunk — of the bucket size, respectively of `n` —
rounded up to a multiple of `max_alignment`, and count `n` (the request, not
the chunk size) into `large_allocated`. -/
def allocate_large (p : pool_allocator) (n : Nat) : AllocSource × pool_allocator :=
  let p1 := { p with large_used := (p.large_used + n) % u64 }
  if n ≤ p1.max_size then
    let bucket := p1.num_small + bucketFrom n (p1.sizes.drop p1.num_small)
    let idx := bucket - p1.num_small
    if 0 < p1.large_buckets.getD idx 0 then
      (AllocSource.largePop bucket,
        { p1 with large_buckets := p1.large_buckets.set idx (p1.large_buckets.getD idx 0 - 1) })
    else
      (AllocSource.freshChunk (round_up_align (p1.sizes.getD bucket 0)) max_alignment,
        { p1 with large_allocated := (p1.large_allocated + n) % u64 })
  else
    (AllocSource.freshChunk (round_up_align n) max_alignment,
      { p1 with large_allocated := (p1.large_allocated + n) % u64 })

/-- `pool_allocator::allocate(n)`: large requests go to `allocate_large`;
otherwise find the smallest bucket whose size is at least `n` from bucket 0
and allocate from its thread-local small allocator (whose free-list behaviour
is modelled from the spec: a block is handed out, and a new one is created
exactly when the free list is empty, that is when all allocated blocks are in
use). -/
def pool_allocator.allocate (p : pool_allocator) (n : Nat) : AllocSource × pool_allocator :=
  if n > p.max_small then allocate_large p n
  else
    let bucket := bucketFrom n p.sizes
    let used := p.smallUsed.getD bucket 0
    let alloc := p.smallAllocated.getD bucket 0
    (AllocSource.smallPop bucket,
      { p with
        smallUsed := p.smallUsed.set bucket (used + 1)
        smallAllocated :=
          if alloc = used then p.smallAllocated.set bucket (alloc + 1)
          else p.smallAllocated })

/-- `pool_allocator::deallocate_large(ptr, n)`: subtract `n` from
`large_used`; blocks above `max_size` go back to the system allocator and are
subtracted from `large_allocated`; bucket-sized blocks are pushed onto their
bucket's shared stack and stay allocated. -/
def deallocate_large (p : pool_allocator) (n : Nat) : pool_allocator :=
  let p1 := { p with large_used := u64sub p.large_used n }
  if n > p1.max_size then { p1 with large_allocated := u64sub p1.large_allocated n }
  else
    let bucket := p1.num_small + bucketFrom n (p1.sizes.drop p1.num_small)
    let idx := bucket - p1.num_small
    { p1 with large_buckets := p1.large_buckets.set idx (p1.large_buckets.getD idx 0 + 1) }

/-- `pool_allocator::deallocate(ptr, n)`: large blocks go to
`deallocate_large`; small blocks go back to their bucket's thread-local
free list. -/
def pool_allocator.deallocate (p : pool_allocator) (n : Nat) : pool_allocator :=
  if n > p.max_small then deallocate_large p n
  else
    let bucket := bucketFrom n p.sizes
    { p with smallUsed := p.smallUsed.set bucket (p.smallUsed.getD bucket 0 - 1) }

/-- The sum over the small buckets of a per-bucket counter times the bucket
size, as accumulated by the loop in `stats`. -/
def sumCounts : List Nat → List Nat → Nat
  | a :: as, s :: ss => a * s + sumCounts as ss
  | _, _ => 0

/-- `pool_allocator::stats()`: total up allocated and used bytes over the
large pool and the small buckets and return the pair
`(total_used, total_allocated - total_used)` (64-bit unsigned subtraction). -/
def pool_allocator.stats (p : pool_allocator) : Nat × Nat :=
  let total_a := (p.large_allocated + sumCounts p.smallAllocated (p.sizes.take p.num_small)) % u64
  let total_u := (p.large_used + sumCounts p.smallUsed (p.sizes.take p.num_small)) % u64
  (total_u, u64sub total_a total_u)

/-- Constraints the source places on the size table (nonempty, strictly
increasing, each size at least 8) together with the value of `num_small`
established by the constructor. -/
def poolWF (p : pool_allocator) : Prop :=
  p.sizes ≠ [] ∧ p.sizes.Pairwise (· < ·) ∧ (∀ x ∈ p.sizes, 8 ≤ x) ∧
    p.num_small = (p.sizes.takeWhile (fun s => s < large_threshold)).length

/-- The bucket actually used by `allocate(n)`, as stated by the claim with the
chunk size amended: the smallest bucket whose size is at least `n`; fresh
large chunks have the bucket size (or the request size, above `max_size`)
rounded up to a multiple of `max_alignment = 128`. -/
def AllocateSpec (p : pool_allocator) (n : Nat) : Prop :=
  (n ≤ p.max_small →
    ∃ k, (p.allocate n).1 = AllocSource.smallPop k ∧ k < p.num_small ∧
      n ≤ p.sizes.getD k 0 ∧ ∀ j, j < k → p.sizes.getD j 0 < n) ∧
  (p.max_small < n → n ≤ p.max_size →
    ∃ k, k < p.sizes.length ∧ n ≤ p.sizes.getD k 0 ∧
      (∀ j, j < k → p.sizes.getD j 0 < n) ∧
      ((0 < p.large_buckets.getD (k - p.num_small) 0 ∧
          (p.allocate n).1 = AllocSource.largePop k) ∨
        (p.large_buckets.getD (k - p.num_small) 0 = 0 ∧
          (p.allocate n).1 =
            AllocSource.freshChunk (round_up_align (p.sizes.getD k 0)) max_alignment))) ∧
  (p.max_size < n →
    (p.allocate n).1 = AllocSource.freshChunk (round_up_align n) max_alignment)

/-- The C9 failing trace: a 262144-byte bucket chunk created by a 100-byte
request, returned, then reused by a 262144-byte request. -/
def c9pool : pool_allocator :=
  (((((mkPool [262144]).allocate 100).2).deallocate 100).allocate 262144).2

/-! ## Theorems -/

theorem dequeInv_init (V : Type) : DequeInv (dequeInit V) := by
  constructor
  · exact Nat.le_refl 0
  · intro i hi
    exact absurd hi (Nat.not_lt_zero i)

/-! ### Per-branch characterizations of the three operations -/

theorem push_bottom_eq {V : Type} (s : Deque V) (v : V) :
    push_bottom s v =
      (⟨s.bot + 1, s.top, fun i => if i = s.bot then some v else s.deq i⟩, true) :=
  rfl

theorem pop_top_empty {V : Type} {s : Deque V} (h : s.bot ≤ s.top) :
    pop_top s = ((none, true), s) := by
  simp [pop_top, Nat.not_lt.mpr h]

theorem pop_top_take {V : Type} {s : Deque V} (h : s.top < s.bot) :
    pop_top s = ((s.deq s.top, s.bot == s.top + 1), ⟨s.bot, s.top + 1, s.deq⟩) := by
  simp [pop_top, cas, h]

theorem pop_bottom_zero {V : Type} {s : Deque V} (h : s.bot = 0) :
    pop_bottom s = (none, s) := by
  simp [pop_bottom, h]

theorem pop_bottom_mid {V : Type} {s : Deque V} (h : s.top + 1 < s.bot) :
    pop_bottom s = (s.deq (s.bot - 1), ⟨s.bot - 1, s.top, s.deq⟩) := by
  have hb0 : s.bot ≠ 0 := by omega
  have ht : s.top ≤ s.bot - 1 := by omega
  have hne : s.top ≠ s.bot - 1 := by omega
  simp [pop_bottom, hb0, ht, hne]

theorem pop_bottom_last {V : Type} {s : Deque V} (h : s.bot = s.top + 1) :
    pop_bottom s = (s.deq s.top, ⟨s.top + 1, s.top + 1, s.deq⟩) := by
  have hb0 : s.bot ≠ 0 := by omega
  have hb : s.bot - 1 = s.top := by omega
  simp [pop_bottom, cas, hb0, hb]

theorem pop_bottom_empty {V : Type} {s : Deque V} (h1 : s.bot ≠ 0)
    (h2 : s.bot ≤ s.top) : pop_bottom s = (none, s) := by
  have ht : ¬ s.top ≤ s.bot - 1 := by omega
  have hb : s.bot - 1 + 1 = s.bot := by omega
  simp only [pop_bottom, if_neg h1, if_neg ht, hb]

theorem dequeInv_push {V : Type} {s : Deque V} (h : DequeInv s) (v : V) :
    DequeInv (push_bottom s v).1 := by
  obtain ⟨h1, h2⟩ := h
  rw [push_bottom_eq]
  refine ⟨Nat.le_succ_of_le h1, ?_⟩
  intro i hi
  by_cases hib : i = s.bot
  · simp [hib]
  · have hlt : i < s.bot := by
      simp only at hi
      omega
    simpa [hib] using h2 i hlt

theorem dequeInv_popTop {V : Type} {s : Deque V} (h : DequeInv s) :
    DequeInv (pop_top s).2 := by
  obtain ⟨h1, h2⟩ := h
  by_cases hlt : s.top < s.bot
  · rw [pop_top_take hlt]
    exact ⟨hlt, h2⟩
  · rw [pop_top_empty (Nat.not_lt.mp hlt)]
    exact ⟨h1, h2⟩

theorem dequeInv_popBot {V : Type} {s : Deque V} (h : DequeInv s) :
    DequeInv (pop_bottom s).2 := by
  obtain ⟨h1, h2⟩ := h
  by_cases hb0 : s.bot = 0
  · rw [pop_bottom_zero hb0]
    exact ⟨h1, h2⟩
  · rcases Nat.lt_trichotomy (s.top + 1) s.bot with hlt | heq | hgt
    · rw [pop_bottom_mid hlt]
      dsimp only [DequeInv]
      exact ⟨by omega, fun i hi => h2 i (by omega)⟩
    · rw [pop_bottom_last heq.symm]
      dsimp only [DequeInv]
      exact ⟨Nat.le_refl _, fun i hi => h2 i (by omega)⟩
    · have hbe : s.bot = s.top := by omega
      rw [pop_bottom_empty hb0 (by omega)]
      exact ⟨h1, h2⟩

theorem dequeInv_step {V : Type} {s : Deque V} (h : DequeInv s) (op : DeqOp V) :
    DequeInv (stepOp s op) := by
  cases op with
  | push v => exact dequeInv_push h v
  | popBot => exact dequeInv_popBot h
  | popTop => exact dequeInv_popTop h

theorem dequeInv_runOps {V : Type} {s : Deque V} (h : DequeInv s)
    (ops : List (DeqOp V)) : DequeInv (runOps s ops) := by
  induction ops generalizing s with
  | nil => exact h
  | cons op rest ih => exact ih (dequeInv_step h op)

theorem dequeInv_reachable {V : Type} {s : Deque V} (h : Reachable s) :
    DequeInv s := by
  obtain ⟨ops, rfl⟩ := h
  exact dequeInv_runOps (dequeInv_init V) ops

theorem push_all_nil {V : Type} (s : Deque V) : push_all s [] = s := rfl

theorem push_all_cons {V : Type} (s : Deque V) (v : V) (vs : List V) :
    push_all s (v :: vs) = push_all (push_bottom s v).1 vs := rfl

theorem push_all_bot {V : Type} (s : Deque V) (vs : List V) :
    (push_all s vs).bot = s.bot + vs.length := by
  induction vs generalizing s with
  | nil => simp [push_all_nil]
  | cons v vs ih =>
    rw [push_all_cons, ih]
    simp only [push_bottom_eq, List.length_cons]
    omega

theorem push_all_top {V : Type} (s : Deque V) (vs : List V) :
    (push_all s vs).top = s.top := by
  induction vs generalizing s with
  | nil => simp [push_all_nil]
  | cons v vs ih =>
    rw [push_all_cons, ih]
    simp [push_bottom_eq]

theorem push_all_deq_lt {V : Type} (s : Deque V) (vs : List V) {i : Nat}
    (hi : i < s.bot) : (push_all s vs).deq i = s.deq i := by
  induction vs generalizing s with
  | nil => simp [push_all_nil]
  | cons v vs ih =>
    rw [push_all_cons]
    have hi2 : i < (push_bottom s v).1.bot := by
      simp only [push_bottom_eq]
      omega
    rw [ih _ hi2]
    simp only [push_bottom_eq]
    have : i ≠ s.bot := by omega
    simp [this]

theorem push_all_deq_get {V : Type} (s : Deque V) (vs : List V) :
    ∀ j, j < vs.length → (push_all s vs).deq (s.bot + j) = vs[j]? := by
  induction vs generalizing s with
  | nil => intro j hj; exact absurd hj (Nat.not_lt_zero j)
  | cons v vs ih =>
    intro j hj
    rw [push_all_cons]
    cases j with
    | zero =>
      have hb : s.bot < (push_bottom s v).1.bot := by
        simp only [push_bottom_eq]; omega
      rw [Nat.add_zero, push_all_deq_lt _ _ hb]
      simp [push_bottom_eq]
    | succ j =>
      have hstep : s.bot + (j + 1) = (push_bottom s v).1.bot + j := by
        simp only [push_bottom_eq]; omega
      rw [hstep, ih _ j (by simpa using hj)]
      simp

theorem pop_bottoms_succ {V : Type} (s : Deque V) (n : Nat) :
    pop_bottoms s (n + 1) =
      ((pop_bottom s).1 :: (pop_bottoms (pop_bottom s).2 n).1,
        (pop_bottoms (pop_bottom s).2 n).2) := rfl

theorem pop_tops_succ {V : Type} (s : Deque V) (n : Nat) :
    pop_tops s (n + 1) =
      ((pop_top s).1 :: (pop_tops (pop_top s).2 n).1,
        (pop_tops (pop_top s).2 n).2) := rfl

/-- Draining a deque whose `bot` is `n + 1` and whose `top` is `0` with
`n + 1` owner pops returns the slots in descending index order and leaves the
deque in the stable empty state `bot = top = 1`. -/
theorem pop_bottoms_drain {V : Type} :
    ∀ (n : Nat) (s : Deque V), s.bot = n + 1 → s.top = 0 →
      pop_bottoms s (n + 1) =
        (((List.range (n + 1)).reverse).map s.deq, ⟨1, 1, s.deq⟩) := by
  intro n
  induction n with
  | zero =>
    intro s hb ht
    have hlast : s.bot = s.top + 1 := by omega
    rw [pop_bottoms_succ, pop_bottom_last hlast, ht]
    simp [pop_bottoms, List.range_succ]
  | succ m ih =>
    intro s hb ht
    have hmid : s.top + 1 < s.bot := by omega
    rw [pop_bottoms_succ, pop_bottom_mid hmid]
    have hb1 : s.bot - 1 = m + 1 := by omega
    rw [hb1, ih ⟨m + 1, s.top, s.deq⟩ rfl ht]
    simp [List.range_succ]

/-- Stealing from a deque with `top = k` and `bot = k + n` with `n` thief pops
returns the slots `k, k+1, ...` in ascending index order, with
`empty_after = (bot == i + 1)` for the pop of index `i`, and leaves the deque
with `top = bot`. -/
theorem pop_tops_steal {V : Type} :
    ∀ (n : Nat) (s : Deque V) (k : Nat), s.top = k → s.bot = k + n →
      pop_tops s n =
        ((List.range' k n).map fun i => (s.deq i, s.bot == i + 1),
          ⟨s.bot, s.bot, s.deq⟩) := by
  intro n
  induction n with
  | zero =>
    intro s k ht hb
    cases s with
    | mk b t d =>
      simp only at ht hb
      have htb : t = b := by omega
      subst htb
      simp [pop_tops]
  | succ m ih =>
    intro s k ht hb
    have htake : s.top < s.bot := by omega
    rw [pop_tops_succ, pop_top_take htake, ht]
    rw [ih ⟨s.bot, k + 1, s.deq⟩ (k + 1) rfl (by simp only; omega)]
    simp only [List.range'_succ, List.map_cons]

/-- If `g` agrees with `vs[.]?` below `vs.length`, mapping `g` over
`range vs.length` recovers `vs.map some`. -/
theorem map_range_eq_map_some {V : Type} (vs : List V) (g : Nat → Option V)
    (h : ∀ j, j < vs.length → g j = vs[j]?) :
    (List.range vs.length).map g = vs.map some := by
  induction vs using List.reverseRecOn with
  | nil => simp
  | append_singleton ws w ih =>
    have hlen : (ws ++ [w]).length = ws.length + 1 := by simp
    rw [hlen, List.range_succ, List.map_append, List.map_append]
    have h1 : (List.range ws.length).map g = ws.map some := by
      refine ih fun j hj => ?_
      rw [h j (by simp; omega)]
      simp [List.getElem?_append, hj]
    have h2 : g ws.length = some w := by
      rw [h ws.length (by simp)]
      simp [List.getElem?_append]
    rw [h1]
    simp [h2]

/-! ### Claims C1 to C4 and C10 -/

/-- C1: for every `N` and values `v_0, ..., v_{N-1}`, executing `N`
`push_bottom(v_i)` calls in order followed by `N` `pop_bottom` calls, all by
the owner with no concurrent thieves, returns the values in reverse (LIFO)
order `v_{N-1}, ..., v_0`. -/
theorem c1_owner_lifo (V : Type) (vs : List V) :
    (pop_bottoms (push_all (dequeInit V) vs) vs.length).1 = vs.reverse.map some := by
  cases vs with
  | nil => rfl
  | cons v rest =>
    have hb : (push_all (dequeInit V) (v :: rest)).bot = rest.length + 1 := by
      rw [push_all_bot]
      simp [dequeInit]
    have ht : (push_all (dequeInit V) (v :: rest)).top = 0 := by
      rw [push_all_top]
      rfl
    have hlen : (v :: rest).length = rest.length + 1 := rfl
    rw [hlen, pop_bottoms_drain rest.length _ hb ht]
    have hmap : (List.range (v :: rest).length).map
          (push_all (dequeInit V) (v :: rest)).deq = (v :: rest).map some := by
      apply map_range_eq_map_some
      intro j hj
      have hg := push_all_deq_get (dequeInit V) (v :: rest) j hj
      simpa [dequeInit] using hg
    rw [hlen] at hmap
    simp only [List.map_reverse] at *
    rw [hmap]

/-- C2: after `N` pushes, a sequence of `N` `pop_top` calls with no other
concurrent operations returns the values in ascending index (FIFO) order
`v_0, ..., v_{N-1}`, with `empty_after = false` on every call except the
`N`-th, which returns `(v_{N-1}, true)`. -/
theorem c2_thief_fifo (V : Type) (vs : List V) :
    (pop_tops (push_all (dequeInit V) vs) vs.length).1 =
      (List.range vs.length).map fun i => (vs[i]?, vs.length == i + 1) := by
  have ht : (push_all (dequeInit V) vs).top = 0 := by
    rw [push_all_top]
    rfl
  have hb : (push_all (dequeInit V) vs).bot = 0 + vs.length := by
    rw [push_all_bot]
    simp [dequeInit]
  rw [pop_tops_steal vs.length _ 0 ht hb]
  simp only [← List.range_eq_range']
  apply List.map_congr_left
  intro i hi
  have hilt : i < vs.length := List.mem_range.mp hi
  have hg : (push_all (dequeInit V) vs).deq i = vs[i]? := by
    simpa [dequeInit] using push_all_deq_get (dequeInit V) vs i hilt
  have hbot : (push_all (dequeInit V) vs).bot = vs.length := by omega
  rw [hg, hbot]

/-- C3: `pop_top` returns `(null, true)` whenever the loaded `bot` is at most
the loaded `top`; on a successful CAS of `top` from `t` to `t + 1` it returns
`(get_tail(t), b == t + 1)`; the returned Boolean is `true` iff the deque is
empty after the operation; and any `pop_bottom` returning null implies the
deque was empty at its linearization point. -/
theorem c3_empty_signals (V : Type) (s : Deque V) (h : Reachable s) :
    (s.bot ≤ s.top → pop_top s = ((none, true), s)) ∧
      (s.top < s.bot →
        pop_top s = ((s.deq s.top, s.bot == s.top + 1), ⟨s.bot, s.top + 1, s.deq⟩)) ∧
      (((pop_top s).1.2 = true) ↔ (pop_top s).2.bot ≤ (pop_top s).2.top) ∧
      ((pop_bottom s).1 = none → s.bot = s.top) := by
  obtain ⟨hts, hsome⟩ := dequeInv_reachable h
  refine ⟨fun he => pop_top_empty he, fun ht => pop_top_take ht, ?_, ?_⟩
  · by_cases hlt : s.top < s.bot
    · rw [pop_top_take hlt]
      simp only [beq_iff_eq]
      constructor
      · intro hbeq
        omega
      · intro hle
        simp only at hle
        omega
    · rw [pop_top_empty (Nat.not_lt.mp hlt)]
      simpa using Nat.not_lt.mp hlt
  · intro hnone
    by_cases hb0 : s.bot = 0
    · omega
    · rcases Nat.lt_trichotomy (s.top + 1) s.bot with hlt | heq | hgt
      · rw [pop_bottom_mid hlt] at hnone
        have hne := hsome (s.bot - 1) (by omega)
        simp only at hnone
        rw [hnone] at hne
        simp at hne
      · rw [pop_bottom_last heq.symm] at hnone
        have hne := hsome s.top (by omega)
        simp only at hnone
        rw [hnone] at hne
        simp at hne
      · omega

/-- C4: starting from a newly constructed deque, the invariant
`top ≤ bot + 1` holds before and after every `push_bottom`, `pop_bottom` and
`pop_top`, for every sequence of these operations; in particular the assertion
`local_bot + 1 ≥ old_top` in `pop_top` never fails. -/
theorem c4_invariant_i1 (V : Type) (s : Deque V) (h : Reachable s) :
    s.top ≤ s.bot + 1 := by
  have hts := (dequeInv_reachable h).1
  omega

/-- C10: whenever `pop_bottom`, executed sequentially by the owner, returns
null, the deque state is unchanged: `bot`, `top` and every slot hold the same
values after the call as before it. -/
theorem c10_null_pop_bottom_frame (V : Type) (s : Deque V) (h : Reachable s)
    (hn : (pop_bottom s).1 = none) : (pop_bottom s).2 = s := by
  obtain ⟨hts, hsome⟩ := dequeInv_reachable h
  by_cases hb0 : s.bot = 0
  · rw [pop_bottom_zero hb0]
  · rcases Nat.lt_trichotomy (s.top + 1) s.bot with hlt | heq | hgt
    · rw [pop_bottom_mid hlt] at hn
      have hne := hsome (s.bot - 1) (by omega)
      simp only at hn
      rw [hn] at hne
      simp at hne
    · rw [pop_bottom_last heq.symm] at hn
      have hne := hsome s.top (by omega)
      simp only at hn
      rw [hn] at hne
      simp at hne
    · rw [pop_bottom_empty hb0 (by omega)]

theorem searchFwd_finds :
    ∀ (k headId desired b : Nat), desired - b = k → b ≤ desired →
      desired ≤ headId → searchFwd headId desired b = some desired := by
  intro k
  induction k with
  | zero =>
    intro headId desired b hk hb hd
    have hbd : b = desired := by omega
    rw [searchFwd, if_neg (by omega)]
    rw [hbd]
  | succ m ih =>
    intro headId desired b hk hb hd
    have hlt : b < desired := by omega
    rw [searchFwd, if_pos hlt, if_pos (by omega)]
    exact ih headId desired (b + 1) (by omega) (by omega) hd

theorem searchBwd_self (desired : Nat) : searchBwd desired desired = desired := by
  rw [searchBwd, if_neg (by omega)]

theorem u64_eq : u64 = 18446744073709551616 := by norm_num [u64]

theorem u64sub_one {d : Nat} (h1 : 1 ≤ d) (h2 : d < u64) : u64sub d 1 = d - 1 := by
  rw [u64_eq] at h2
  simp only [u64sub, u64_eq]
  omega

theorem u64sub_zero_one : u64sub 0 1 = u64 - 1 := by
  simp only [u64sub, u64_eq]

theorem ca_retire_last_block_eq (s : CAState) :
    ca_retire_last_block s = ⟨s.tailId + 1, s.headId, s.tailId :: s.retired⟩ := by
  simp [ca_retire_last_block, retireCasLoop]

theorem get_tail_eq (s : CAState) (index : Nat)
    (h1 : s.tailId ≤ index >>> blockSizeLog)
    (h2 : index >>> blockSizeLog ≤ s.headId) :
    get_tail s index = some (index >>> blockSizeLog,
      if index &&& block_size_mask = 0 ∧ index >>> blockSizeLog ≠ s.tailId ∧
          s.tailId = u64sub (index >>> blockSizeLog) 1
        then ca_retire_last_block s else s) := by
  have hfwd := searchFwd_finds (index >>> blockSizeLog - s.tailId) s.headId
    (index >>> blockSizeLog) s.tailId rfl h1 h2
  simp [get_tail, hfwd, searchBwd_self]

/-- C6: `get_tail(index)` triggers block retirement only when all three
conditions hold — the offset within the block is 0, the found block differs
from the observed tail, and the observed tail id is `desired_block_id - 1` —
and consequently a block is never retired while its id equals the current
tail id (the retired id is strictly below the new tail id), and the slot that
`get_tail` reads is never located in the block being retired. -/
theorem c6_retirement_safety (s : CAState) (index : Nat)
    (hidx : index < u64)
    (h1 : s.tailId ≤ index >>> blockSizeLog)
    (h2 : index >>> blockSizeLog ≤ s.headId) :
    ∃ s2, get_tail s index = some (index >>> blockSizeLog, s2) ∧
      (s2 = s ∨
        (index &&& block_size_mask = 0 ∧
          index >>> blockSizeLog ≠ s.tailId ∧
          s.tailId + 1 = index >>> blockSizeLog ∧
          s2.retired = s.tailId :: s.retired ∧
          s2.tailId = s.tailId + 1 ∧
          s.tailId < s2.tailId ∧
          s.tailId ≠ index >>> blockSizeLog)) := by
  have hd : index >>> blockSizeLog < u64 := by
    have hle : index >>> blockSizeLog ≤ index := by
      rw [Nat.shiftRight_eq_div_pow]
      exact Nat.div_le_self _ _
    omega
  rw [get_tail_eq s index h1 h2]
  by_cases hc : index &&& block_size_mask = 0 ∧ index >>> blockSizeLog ≠ s.tailId ∧
      s.tailId = u64sub (index >>> blockSizeLog) 1
  · obtain ⟨hoff, hne, htl⟩ := hc
    have hplus : s.tailId + 1 = index >>> blockSizeLog := by
      rcases Nat.eq_zero_or_pos (index >>> blockSizeLog) with h0 | hpos
      · exfalso
        rw [h0, u64sub_zero_one, u64_eq] at htl
        rw [h0] at h1
        omega
      · rw [u64sub_one hpos hd] at htl
        omega
    refine ⟨ca_retire_last_block s, by rw [if_pos ⟨hoff, hne, htl⟩], Or.inr ?_⟩
    rw [ca_retire_last_block_eq]
    dsimp only
    exact ⟨hoff, hne, hplus, rfl, rfl, Nat.lt_succ_self _, by omega⟩
  · exact ⟨s, by rw [if_neg hc], Or.inl rfl⟩

/-- C7 (evaluation at the failing interference): with `old_block` loaded as
block 0 and `next_old_block` as block 1, an interfering thief that has already
advanced `tail` to block 1 makes the first CAS fail; the reloaded tail id
equals the candidate id, so the loop performs a second CAS (it does not stop),
and the procedure finishes with the final tail id equal to the id of the block
it pushes for retirement — the block the clobbered `old_block` variable points
to, which is the current tail — so the assertion
`tail.block_id > old_block.block_id` fails. -/
theorem c7_retire_cas_clobber :
    retireCasLoop 1 0 1 [] = ⟨1, 1, 2⟩ ∧
      ¬ (retireCasLoop 1 0 1 []).pushedId < (retireCasLoop 1 0 1 []).finalTailId := by
  decide

theorem c6_retirement_safety_witness :
    (block_size < u64 ∧
      (⟨0, 1, []⟩ : CAState).tailId ≤ block_size >>> blockSizeLog ∧
      block_size >>> blockSizeLog ≤ (⟨0, 1, []⟩ : CAState).headId) ∧
      ∃ s2, get_tail ⟨0, 1, []⟩ block_size = some (block_size >>> blockSizeLog, s2) ∧
        (s2 = (⟨0, 1, []⟩ : CAState) ∨
          (block_size &&& block_size_mask = 0 ∧
            block_size >>> blockSizeLog ≠ (⟨0, 1, []⟩ : CAState).tailId ∧
            (⟨0, 1, []⟩ : CAState).tailId + 1 = block_size >>> blockSizeLog ∧
            s2.retired = (⟨0, 1, []⟩ : CAState).tailId :: (⟨0, 1, []⟩ : CAState).retired ∧
            s2.tailId = (⟨0, 1, []⟩ : CAState).tailId + 1 ∧
            (⟨0, 1, []⟩ : CAState).tailId < s2.tailId ∧
            (⟨0, 1, []⟩ : CAState).tailId ≠ block_size >>> blockSizeLog)) :=
  ⟨⟨by decide, by decide, by decide⟩,
    c6_retirement_safety ⟨0, 1, []⟩ block_size (by decide) (by decide) (by decide)⟩

theorem bucketFrom_spec (n : Nat) :
    ∀ l : List Nat, (∃ x ∈ l, n ≤ x) →
      bucketFrom n l < l.length ∧ n ≤ l.getD (bucketFrom n l) 0 ∧
        ∀ j, j < bucketFrom n l → l.getD j 0 < n := by
  intro l
  induction l with
  | nil =>
    rintro ⟨x, hx, -⟩
    cases hx
  | cons s rest ih =>
    rintro ⟨x, hx, hnx⟩
    by_cases hs : n > s
    · have hex : ∃ y ∈ rest, n ≤ y := by
        rcases List.mem_cons.mp hx with rfl | hxr
        · omega
        · exact ⟨x, hxr, hnx⟩
      obtain ⟨hlt, hle, hall⟩ := ih hex
      simp only [bucketFrom, if_pos hs]
      refine ⟨by simpa using Nat.succ_lt_succ hlt, by simpa using hle, ?_⟩
      intro j hj
      cases j with
      | zero => simpa using hs
      | succ j => simpa using hall j (by omega)
    · simp only [bucketFrom, if_neg hs]
      exact ⟨by simp, by simpa using Nat.not_lt.mp hs,
        fun j hj => absurd hj (by omega)⟩

theorem allocate_small_branch (p : pool_allocator) (n : Nat)
    (h : ¬ p.max_small < n) :
    (p.allocate n).1 = AllocSource.smallPop (bucketFrom n p.sizes) := by
  simp [pool_allocator.allocate, h]

theorem allocate_large_branch (p : pool_allocator) (n : Nat)
    (h : p.max_small < n) : p.allocate n = allocate_large p n := by
  simp [pool_allocator.allocate, h]

theorem allocate_large_stock (p : pool_allocator) (n : Nat)
    (h1 : n ≤ p.max_size)
    (h2 : 0 < p.large_buckets.getD (bucketFrom n (p.sizes.drop p.num_small)) 0) :
    (allocate_large p n).1 =
      AllocSource.largePop (p.num_small + bucketFrom n (p.sizes.drop p.num_small)) := by
  have h1u : n ≤ p.sizes.getD (p.sizes.length - 1) 0 := h1
  have hidx : p.num_small + bucketFrom n (p.sizes.drop p.num_small) - p.num_small =
      bucketFrom n (p.sizes.drop p.num_small) := by omega
  simp only [allocate_large, pool_allocator.max_size]
  rw [if_pos h1u, hidx, if_pos h2]

theorem allocate_large_fresh (p : pool_allocator) (n : Nat)
    (h1 : n ≤ p.max_size)
    (h2 : p.large_buckets.getD (bucketFrom n (p.sizes.drop p.num_small)) 0 = 0) :
    (allocate_large p n).1 =
      AllocSource.freshChunk
        (round_up_align (p.sizes.getD (p.num_small + bucketFrom n (p.sizes.drop p.num_small)) 0))
        max_alignment := by
  have h1u : n ≤ p.sizes.getD (p.sizes.length - 1) 0 := h1
  have hidx : p.num_small + bucketFrom n (p.sizes.drop p.num_small) - p.num_small =
      bucketFrom n (p.sizes.drop p.num_small) := by omega
  simp only [allocate_large, pool_allocator.max_size]
  rw [if_pos h1u, hidx, if_neg (by omega)]

theorem allocate_large_huge (p : pool_allocator) (n : Nat)
    (h : ¬ n ≤ p.max_size) :
    (allocate_large p n).1 =
      AllocSource.freshChunk (round_up_align n) max_alignment := by
  have hu : ¬ n ≤ p.sizes.getD (p.sizes.length - 1) 0 := h
  simp only [allocate_large, pool_allocator.max_size]
  rw [if_neg hu]

theorem num_small_le_length (p : pool_allocator)
    (hns : p.num_small = (p.sizes.takeWhile (fun s => s < large_threshold)).length) :
    p.num_small ≤ p.sizes.length := by
  rw [hns]
  exact (List.takeWhile_sublist _).length_le

theorem sizes_getD_drop (p : pool_allocator) (j : Nat)
    (h : p.num_small + j < p.sizes.length) :
    (p.sizes.drop p.num_small).getD j 0 = p.sizes.getD (p.num_small + j) 0 := by
  have hj : j < (p.sizes.drop p.num_small).length := by
    rw [List.length_drop]
    omega
  rw [List.getD_eq_getElem _ 0 hj, List.getD_eq_getElem _ 0 h]
  exact List.getElem_drop p.sizes

set_option maxHeartbeats 1000000 in
/-- C8 (amended): `allocate(n)` serves the request from the smallest bucket
whose size is at least `n`: small requests pop the matching thread-local
small allocator; bucket-sized large requests pop the matching shared stack
and, when the stack is empty, allocate a fresh chunk of the bucket size
rounded up to the next multiple of `max_alignment = 128`; requests above
`max_size` get a fresh chunk of `n` rounded up to the next multiple of 128,
aligned to 128. -/
theorem c8_allocate_bucket (p : pool_allocator) (n : Nat)
    (hwf : poolWF p) (hn : 1 ≤ n) : AllocateSpec p n := by
  obtain ⟨hne, hsort, h8, hns⟩ := hwf
  have hlen0 : 0 < p.sizes.length := List.length_pos.mpr hne
  have hnslen : p.num_small ≤ p.sizes.length := num_small_le_length p hns
  have hpair := List.pairwise_iff_getElem.mp hsort
  refine ⟨?_, ?_, ?_⟩
  · -- small requests
    intro hsmall
    have hns1 : 1 ≤ p.num_small := by
      by_contra h0
      have hz : p.num_small = 0 := by omega
      rw [pool_allocator.max_small, if_pos hz] at hsmall
      omega
    have hmax : p.max_small = p.sizes.getD (p.num_small - 1) 0 := by
      rw [pool_allocator.max_small, if_neg (by omega)]
    have hidx : p.num_small - 1 < p.sizes.length := by omega
    have hex : ∃ x ∈ p.sizes, n ≤ x := by
      refine ⟨p.sizes.getD (p.num_small - 1) 0, ?_, by omega⟩
      rw [List.getD_eq_getElem _ 0 hidx]
      exact List.getElem_mem hidx
    obtain ⟨hk1, hk2, hk3⟩ := bucketFrom_spec n p.sizes hex
    refine ⟨bucketFrom n p.sizes, allocate_small_branch p n (by omega), ?_, hk2, hk3⟩
    by_contra hge
    have hj := hk3 (p.num_small - 1) (by omega)
    omega
  · -- bucket-sized large requests
    intro hlg hle
    have hnslt : p.num_small < p.sizes.length := by
      by_contra hgeq
      have heq : p.num_small = p.sizes.length := by omega
      have h1 : p.max_small = p.sizes.getD (p.sizes.length - 1) 0 := by
        rw [pool_allocator.max_small, if_neg (by omega), heq]
      rw [pool_allocator.max_size] at hle
      omega
    have hmaxsz : p.max_size = p.sizes.getD (p.sizes.length - 1) 0 := rfl
    have hlast : (p.sizes.drop p.num_small).getD (p.sizes.length - 1 - p.num_small) 0 =
        p.sizes.getD (p.sizes.length - 1) 0 := by
      rw [sizes_getD_drop p _ (by omega)]
      congr 1
      omega
    have hlastlt : p.sizes.length - 1 - p.num_small < (p.sizes.drop p.num_small).length := by
      rw [List.length_drop]
      omega
    have hex : ∃ x ∈ p.sizes.drop p.num_small, n ≤ x := by
      refine ⟨(p.sizes.drop p.num_small).getD (p.sizes.length - 1 - p.num_small) 0, ?_, ?_⟩
      · rw [List.getD_eq_getElem _ 0 hlastlt]
        exact List.getElem_mem hlastlt
      · rw [hlast]
        omega
    obtain ⟨hk1, hk2, hk3⟩ := bucketFrom_spec n (p.sizes.drop p.num_small) hex
    have hkb : p.num_small + bucketFrom n (p.sizes.drop p.num_small) < p.sizes.length := by
      rw [List.length_drop] at hk1
      omega
    have hsmax : ∀ j, j < p.num_small → p.sizes.getD j 0 ≤ p.max_small := by
      intro j hj
      have hns1 : 1 ≤ p.num_small := by omega
      have hmax : p.max_small = p.sizes.getD (p.num_small - 1) 0 := by
        rw [pool_allocator.max_small, if_neg (by omega)]
      rcases Nat.lt_or_ge j (p.num_small - 1) with hjlt | hjge
      · have hlt2 := hpair j (p.num_small - 1) (show j < p.sizes.length by omega)
          (show p.num_small - 1 < p.sizes.length by omega) hjlt
        rw [hmax, List.getD_eq_getElem _ 0 (show j < p.sizes.length by omega),
          List.getD_eq_getElem _ 0 (show p.num_small - 1 < p.sizes.length by omega)]
        exact Nat.le_of_lt hlt2
      · have hje : j = p.num_small - 1 := by omega
        rw [hje, hmax]
    refine ⟨p.num_small + bucketFrom n (p.sizes.drop p.num_small), hkb, ?_, ?_, ?_⟩
    · rw [← sizes_getD_drop p _ hkb]
      exact hk2
    · intro j hj
      rcases Nat.lt_or_ge j p.num_small with hjlt | hjge
      · have := hsmax j hjlt
        omega
      · have hj2 : j - p.num_small < bucketFrom n (p.sizes.drop p.num_small) := by omega
        have := hk3 (j - p.num_small) hj2
        rw [sizes_getD_drop p _ (by omega)] at this
        have hje : p.num_small + (j - p.num_small) = j := by omega
        rw [hje] at this
        exact this
    · have hidxe : p.num_small + bucketFrom n (p.sizes.drop p.num_small) - p.num_small =
          bucketFrom n (p.sizes.drop p.num_small) := by omega
      rw [allocate_large_branch p n hlg, hidxe]
      by_cases hstock : 0 < p.large_buckets.getD (bucketFrom n (p.sizes.drop p.num_small)) 0
      · exact Or.inl ⟨hstock, allocate_large_stock p n hle hstock⟩
      · exact Or.inr ⟨by omega, allocate_large_fresh p n hle (by omega)⟩
  · -- requests above max_size
    intro hbig
    have hms : p.max_small ≤ p.max_size := by
      rw [pool_allocator.max_small, pool_allocator.max_size]
      by_cases hz : p.num_small = 0
      · simp [hz]
      · rw [if_neg hz]
        rcases Nat.lt_or_ge (p.num_small - 1) (p.sizes.length - 1) with hlt | hge
        · have hlt2 := hpair (p.num_small - 1) (p.sizes.length - 1)
            (show p.num_small - 1 < p.sizes.length by omega)
            (show p.sizes.length - 1 < p.sizes.length by omega) hlt
          rw [List.getD_eq_getElem _ 0 (show p.num_small - 1 < p.sizes.length by omega),
            List.getD_eq_getElem _ 0 (show p.sizes.length - 1 < p.sizes.length by omega)]
          exact Nat.le_of_lt hlt2
        · have : p.num_small - 1 = p.sizes.length - 1 := by omega
          rw [this]
    rw [allocate_large_branch p n (by omega)]
    exact allocate_large_huge p n (by omega)

/-- C8 (counterexample to the claim as stated): with the single bucket size
262145, allocating 262145 bytes from an empty stack hands out a fresh chunk of
262272 bytes — the bucket size rounded up to a multiple of 128 — not a chunk
of the bucket size 262145. -/
theorem c8_fresh_chunk_rounded :
    ((mkPool [262145]).allocate 262145).1 =
        AllocSource.freshChunk 262272 max_alignment ∧
      (262272 : Nat) ≠ 262145 := by
  constructor
  · decide
  · decide

/-- C9 (evaluation at the failing input): after the trace, 262144 bytes are in
use while `large_allocated` records only the 100 bytes of the creating
request, so the total in use exceeds the total allocated and the unsigned
subtraction in `stats` wraps around to 2^64 - 262044. -/
theorem c9_stats_underflow :
    (c9pool.stats).1 = 262144 ∧
      c9pool.large_allocated +
          sumCounts c9pool.smallAllocated (c9pool.sizes.take c9pool.num_small) = 100 ∧
      (100 : Nat) < 262144 ∧
      (c9pool.stats).2 = u64 - 262044 := by
  refine ⟨by decide, by decide, by decide, by decide⟩

theorem c8_allocate_bucket_witness :
    poolWF (mkPool [8, 262144]) ∧ 1 ≤ 5 ∧ AllocateSpec (mkPool [8, 262144]) 5 :=
  ⟨⟨by decide, by decide, by decide, by decide⟩, by decide,
    c8_allocate_bucket (mkPool [8, 262144]) 5
      ⟨by decide, by decide, by decide, by decide⟩ (by decide)⟩

theorem c3_empty_signals_witness :
    Reachable (dequeInit Nat) ∧
      (((dequeInit Nat).bot ≤ (dequeInit Nat).top →
          pop_top (dequeInit Nat) = ((none, true), dequeInit Nat)) ∧
        ((dequeInit Nat).top < (dequeInit Nat).bot →
          pop_top (dequeInit Nat) =
            (((dequeInit Nat).deq (dequeInit Nat).top,
                (dequeInit Nat).bot == (dequeInit Nat).top + 1),
              ⟨(dequeInit Nat).bot, (dequeInit Nat).top + 1, (dequeInit Nat).deq⟩)) ∧
        (((pop_top (dequeInit Nat)).1.2 = true) ↔
          (pop_top (dequeInit Nat)).2.bot ≤ (pop_top (dequeInit Nat)).2.top) ∧
        ((pop_bottom (dequeInit Nat)).1 = none →
          (dequeInit Nat).bot = (dequeInit Nat).top)) :=
  ⟨⟨[], rfl⟩, c3_empty_signals Nat (dequeInit Nat) ⟨[], rfl⟩⟩

theorem c4_invariant_i1_witness :
    Reachable (dequeInit Nat) ∧ (dequeInit Nat).top ≤ (dequeInit Nat).bot + 1 :=
  ⟨⟨[], rfl⟩, c4_invariant_i1 Nat (dequeInit Nat) ⟨[], rfl⟩⟩

theorem c10_null_pop_bottom_frame_witness :
    Reachable (dequeInit Nat) ∧ (pop_bottom (dequeInit Nat)).1 = none ∧
      (pop_bottom (dequeInit Nat)).2 = dequeInit Nat :=
  ⟨⟨[], rfl⟩, rfl, c10_null_pop_bottom_frame Nat (dequeInit Nat) ⟨[], rfl⟩ rfl⟩
